import Mathlib

/-!
Shallow embedding of the `sea256` hash core (src/sea.ts) and of the
statistical harness (src/hashTester.ts).

Conventions of the embedding:
* JavaScript byte buffers are `List Nat` whose elements are below 256.
* A 32-bit state word is a `Nat` kept below `2 ^ 32` by explicit wrapping,
  mirroring the `>>> 0` coercions and the `Uint32Array` stores of the source.
* JavaScript numbers are IEEE-754 doubles.  Every arithmetic step of the
  source stays below `2 ^ 53` (hence is exact) except the product
  `scale * zetaValue(alpha, beta)` inside `gammaValue`, which is rounded to
  53 significant bits; `fl53` / `flInt` model that rounding exactly.
* Signed `ToInt32` coercions performed by the JavaScript bitwise operators
  are modelled by `toInt32` where the sign can matter.
-/

namespace Sea

/-- Evaluated values of the eight constant expressions in
`config.initialValues` (sun radius, wrapped luminosity, the square-root
constants and the three prime square roots), each an exact IEEE-754
double computation producing an integer below `2 ^ 32`. -/
def initialValues : List Nat :=
  [696342, 4010821885, 144459, 1075349, 97266, 65535, 65535, 65535]

/-- `config.nlConstants.scale`. -/
def scale : Nat := 0xb7e15162

/-- `config.nlConstants.grow`. -/
def grow : Nat := 0x9e3779b9

/-- `config.nlConstants.flip`. -/
def flip : Nat := 0x7f4a7c15

/-- `config.nlConstants.collapse`. -/
def collapse : Nat := 0x243f6a88

/-- `config.nlShift`. -/
def nlShift : Nat := 7

/-- `config.rotLeftAmount`. -/
def rotLeftAmount : Nat := 5

/-- `config.rotRightAmount`. -/
def rotRightAmount : Nat := 3

/-- `config.roundsPerByte`. -/
def roundsPerByte : Nat := 3

/-- `wrap32`, the `x >>> 0` coercion: reduce to an unsigned 32-bit value. -/
def wrap32 (x : Nat) : Nat := x % 2 ^ 32

/-- The JavaScript `ToInt32` coercion: the signed 32-bit value with the
same low 32 bits. -/
def toInt32 (x : Nat) : Int :=
  if x % 2 ^ 32 < 2 ^ 31 then ((x % 2 ^ 32 : Nat) : Int)
  else ((x % 2 ^ 32 : Nat) : Int) - 2 ^ 32

/-- `rotL`: 32-bit rotate left (`((x << n) | (x >>> (32 - n))) >>> 0`). -/
def rotL (x n : Nat) : Nat :=
  ((x % 2 ^ 32) <<< n ||| (x % 2 ^ 32) >>> (32 - n)) % 2 ^ 32

/-- `rotR`: 32-bit rotate right (`((x >>> n) | (x << (32 - n))) >>> 0`). -/
def rotR (x n : Nat) : Nat :=
  ((x % 2 ^ 32) >>> n ||| (x % 2 ^ 32) <<< (32 - n)) % 2 ^ 32

/-- Number of halvings needed to bring `n` under `2 ^ 53`; the first
argument is fuel, always instantiated large enough. -/
def flShiftAux : Nat → Nat → Nat
  | 0, _ => 0
  | fuel + 1, n => if n < 2 ^ 53 then 0 else flShiftAux fuel (n / 2) + 1

/-- Round a nonnegative integer to the nearest IEEE-754 double
(53 significant bits, ties to even).  Exact below `2 ^ 53`. -/
def fl53 (n : Nat) : Nat :=
  let e := flShiftAux 2100 n
  if e = 0 then n
  else
    let q := n / 2 ^ e
    let r := n % 2 ^ e
    if 2 ^ (e - 1) < r ∨ (r = 2 ^ (e - 1) ∧ q % 2 = 1) then (q + 1) * 2 ^ e
    else q * 2 ^ e

/-- Rounding of an integer to the nearest IEEE-754 double; rounding is
symmetric around zero. -/
def flInt (i : Int) : Int :=
  if 0 ≤ i then (fl53 i.toNat : Int) else -(fl53 (-i).toNat : Int)

/-- `zetaValue(alpha, beta) = (alpha ^ beta) + (alpha & beta)`: both bitwise
operators return signed 32-bit values in JavaScript, so the sum is an
integer that may be negative. -/
def zetaValue (alpha beta : Nat) : Int :=
  toInt32 (alpha ^^^ beta) + toInt32 (alpha &&& beta)

/-- `gammaValue(alpha, beta, u)`.  The product `scale * zetaValue(..)` is a
double multiplication, hence rounded by `flInt`; `<< 3` then truncates to
32 bits and multiplies by 8; the remaining steps are exact. -/
def gammaValue (alpha beta u : Nat) : Nat :=
  let z0 : Nat := ((flInt ((scale : Int) * zetaValue alpha beta) * 8) % (2 ^ 32 : Int)).toNat
  let z1 : Nat := (z0 + u * grow) % 2 ^ 32
  let z2 : Nat := rotL (z1 ^^^ flip) nlShift
  (z2 &&& collapse) % 2 ^ 32

/-- `hashByte(b, u)`: `alpha`, `beta`, `gamma`, summed and wrapped. -/
def hashByte (b u : Nat) : Nat :=
  let alpha := rotL (b ^^^ u) rotLeftAmount
  let beta := rotR ((b + u) % 2 ^ 32) rotRightAmount
  let gamma := gammaValue alpha beta u
  (alpha + beta + gamma) % 2 ^ 32

/-- `roundMix(b, u)`: iterate `hashByte` `roundsPerByte` times. -/
def roundMix (b u : Nat) : Nat :=
  (List.range roundsPerByte).foldl (fun val _ => hashByte val u) b

/-- `entangle(u, args)`: start from `args[0]` and fold the remaining words
with `roundMix(wrap32(prev + args[i]), u)`.  The source never applies it to
an empty array; the `[]` case is an arbitrary total completion. -/
def entangle (u : Nat) (args : List Nat) : Nat :=
  match args with
  | [] => 0
  | a :: rest => rest.foldl (fun prev w => roundMix ((prev + w) % 2 ^ 32) u) a

/-- `shiftValue(b, i) = b[i % b.length] || 0`: for an empty buffer the
index is out of range and the `|| 0` produces 0; `List.getD` with
default 0 models both behaviours. -/
def shiftValue (b : List Nat) (i : Nat) : Nat :=
  b.getD (i % b.length) 0

/-- One pass of the inner `for (let j = 0; j < state.length; j++)` loop of
`sea256Raw`: each iteration stores `entangle(u, state) + k` (wrapped by the
`Uint32Array`) into slot `j` of the state that later iterations read. -/
def pass (u k : Nat) (st : List Nat) : List Nat :=
  (List.range st.length).foldl (fun s j => s.set j ((entangle u s + k) % 2 ^ 32)) st

/-- The state after the byte loop of `sea256Raw`: the position counter `i`
starts at 1 and increments after every input byte. -/
def sea256State (bytes key : List Nat) : List Nat :=
  (bytes.foldl (fun (p : List Nat × Nat) u => (pass u (shiftValue key p.2) p.1, p.2 + 1))
    (initialValues, 1)).1

/-- Serialization of one state word in `sea256Raw`:
`(v >> 24) & 0xff, (v >> 16) & 0xff, (v >> 8) & 0xff, v & 0xff` with the
JavaScript signed arithmetic shift (`Int.fdiv`) and signed bitwise and
(`% 256` on the two's-complement value). -/
def serializeWord (v : Nat) : List Nat :=
  [((toInt32 v).fdiv (2 ^ 24) % 256).toNat,
   ((toInt32 v).fdiv (2 ^ 16) % 256).toNat,
   ((toInt32 v).fdiv (2 ^ 8) % 256).toNat,
   ((toInt32 v) % 256).toNat]

/-- `sea256Raw(bytes, key)`: run the byte loop, then serialize each state
word into four bytes. -/
def sea256Raw (bytes key : List Nat) : List Nat :=
  (sea256State bytes key).flatMap serializeWord

/-! Spec-side renderings, written from the specification's wording, to be
compared with the definitions above. -/

/-- Big-endian serialization of one unsigned 32-bit word, as the spec
describes it. -/
def specSerializeWord (v : Nat) : List Nat :=
  [v / 2 ^ 24 % 256, v / 2 ^ 16 % 256, v / 2 ^ 8 % 256, v % 256]

/-- Big-endian serialization of the whole state, as the spec describes it. -/
def specSerialize (st : List Nat) : List Nat :=
  st.flatMap specSerializeWord

/-- The non-linear step as the spec states it, with all arithmetic exact
and wrapping modulo `2 ^ 32`:
`zeta = (alpha xor beta) + (alpha and beta)`,
`z = wrap32((scale * zeta) << 3)`, `z = wrap32(z + u * grow)`,
`z = rotateLeft(z xor flip, 7)`, `z = wrap32(z and collapse)`. -/
def gammaExact (alpha beta u : Nat) : Nat :=
  let zeta := (alpha ^^^ beta) + (alpha &&& beta)
  let z0 := scale * zeta * 8 % 2 ^ 32
  let z1 := (z0 + u * grow) % 2 ^ 32
  let z2 := rotL (z1 ^^^ flip) 7
  (z2 &&& collapse) % 2 ^ 32

/-- The keystream byte as the spec states it: `k = key[i mod len(key)]`,
a genuine in-range lookup when the key is non-empty. -/
def specKeyByte (key : List Nat) (i : Nat) : Nat :=
  if h : key.length = 0 then 0
  else key.get ⟨i % key.length, Nat.mod_lt _ (Nat.pos_of_ne_zero h)⟩

/-- One per-byte pass as the spec states it: for each state word `j` in
order `0..7`, recompute `state[j] = wrap32(entangle(u, state) + k)`,
reading the current state including the words already updated. -/
def specPass (u k : Nat) (st : List Nat) : List Nat :=
  ([0, 1, 2, 3, 4, 5, 6, 7] : List Nat).foldl
    (fun s j => s.set j ((entangle u s + k) % 2 ^ 32)) st

/-- The hash state as the spec states it: for the input byte at 1-indexed
position `i`, select `k = key[i mod len(key)]` and run one `specPass`. -/
def specHashState (bytes key : List Nat) : List Nat :=
  (bytes.foldl (fun (p : List Nat × Nat) u => (specPass u (specKeyByte key p.2) p.1, p.2 + 1))
    (initialValues, 1)).1

end Sea

namespace HashTester

/-- The popcount loop `while (xor) { dist++; xor &= xor - 1; }`; the first
argument is fuel, instantiated with the starting value, which bounds the
number of iterations. -/
def popcountAux : Nat → Nat → Nat
  | 0, _ => 0
  | fuel + 1, x => if x = 0 then 0 else popcountAux fuel (x &&& (x - 1)) + 1

/-- Number of set bits, computed by clearing the lowest set bit. -/
def popcount (x : Nat) : Nat := popcountAux x x

/-- The shared accumulation loop of `hammingDistance` and `bitDiff`:
`for (i = 0; i < n; i++) dist += popcount(a[i] ^ b[i])`, with an
out-of-range read giving 0. -/
def sumXorTo (a b : List Nat) (n : Nat) : Nat :=
  (List.range n).foldl (fun d i => d + popcount (a.getD i 0 ^^^ b.getD i 0)) 0

/-- `HashTester.hammingDistance`: the loop runs over the length of the
first buffer only; a missing byte of the second buffer reads as 0 and
extra bytes of the second buffer are ignored.  The function is total. -/
def hammingDistance (a b : List Nat) : Nat := sumXorTo a b a.length

/-- `HashTester.bitDiff`: the loop runs to the maximum of the two lengths,
each missing byte replaced by 0. -/
def bitDiff (a b : List Nat) : Nat := sumXorTo a b (max a.length b.length)

/-- Differing-bit count of two equal-length byte sequences, as the spec
describes `hammingDistance`. -/
def specHamming (a b : List Nat) : Nat :=
  (List.zipWith (fun x y => popcount (x ^^^ y)) a b).sum

/-- Truncate or zero-pad a byte sequence to exactly `n` bytes. -/
def adjust (a : List Nat) (n : Nat) : List Nat :=
  a.take n ++ List.replicate (n - a.length) 0

/-- Zero-extension of a byte sequence to `n` bytes (no truncation). -/
def zeroExtend (a : List Nat) (n : Nat) : List Nat :=
  a ++ List.replicate (n - a.length) 0

/-- The single error kind the spec assigns to the harness. -/
inductive HarnessError where
  | lengthMismatch
deriving DecidableEq

/-- `hammingDistance` as the spec states it: defined only on equal-length
sequences, failing explicitly with `LengthMismatch` otherwise. -/
def specHammingChecked (a b : List Nat) : Except HarnessError Nat :=
  if a.length = b.length then .ok (specHamming a b)
  else .error .lengthMismatch

/-- `flipBit(input, bitPos)`: toggle bit `bitPos % 8` of byte
`bitPos / 8`; an out-of-range byte index leaves the buffer unchanged
(`List.set` out of range is the identity, as is the JavaScript store). -/
def flipBit (input : List Nat) (bitPos : Nat) : List Nat :=
  input.set (bitPos / 8) (input.getD (bitPos / 8) 0 ^^^ (1 <<< (bitPos % 8)))

/-- `HashTester.diffusion`: the hash function (with the testing key baked
in, digests hex-decoded to byte lists) is a parameter; trial `i`
deterministically flips bit `i % (input.length * 8)`, the bit differences
are accumulated and the total is divided by the trial count and by the
digest bit count, in exact rational arithmetic. -/
def diffusion (hashFn : List Nat → List Nat) (input : List Nat) (flips : Nat) : ℚ :=
  let originalHash := hashFn input
  let hashBits := originalHash.length * 8
  let totalDiffBits := (List.range flips).foldl
    (fun t i => t + bitDiff originalHash (hashFn (flipBit input (i % (input.length * 8))))) 0
  ((totalDiffBits : ℚ) / (flips : ℚ)) / (hashBits : ℚ)

/-- Result of `HashTester.preimage`: either `{found: true, candidate,
tries}` or `{found: false, tries}`. -/
inductive PreimageResult where
  | found (candidate : List Nat) (tries : Nat)
  | notFound (tries : Nat)
deriving DecidableEq

/-- The `for (let i = 0; i < attempts; i++)` loop of `preimage`, with the
stream of random candidates supplied as the oracle `cands`; `i` is the
next index to try and the last argument the number of remaining tries. -/
def preimageGo (hashFn : List Nat → List Nat) (cands : Nat → List Nat)
    (output : List Nat) (attempts : Nat) : Nat → Nat → PreimageResult
  | _, 0 => .notFound attempts
  | i, rem + 1 =>
    if hashFn (cands i) = output then .found (cands i) (i + 1)
    else preimageGo hashFn cands output attempts (i + 1) rem

/-- `HashTester.preimage`: try candidates `cands 0, cands 1, ...` until a
hash matches `output` or `attempts` tries are exhausted. -/
def preimage (hashFn : List Nat → List Nat) (cands : Nat → List Nat)
    (output : List Nat) (attempts : Nat) : PreimageResult :=
  preimageGo hashFn cands output attempts 0 attempts

end HashTester

namespace HashTester

theorem foldl_add_map_sum (f : Nat → Nat) (l : List Nat) (init : Nat) :
    l.foldl (fun d i => d + f i) init = init + (l.map f).sum := by
  induction l generalizing init with
  | nil => simp
  | cons x xs ih => simp [ih, Nat.add_assoc]

theorem sumXorTo_eq_sum (a b : List Nat) (n : Nat) :
    sumXorTo a b n
      = ((List.range n).map (fun i => popcount (a.getD i 0 ^^^ b.getD i 0))).sum := by
  unfold sumXorTo
  simpa using foldl_add_map_sum (fun i => popcount (a.getD i 0 ^^^ b.getD i 0)) (List.range n) 0

theorem getElem_zero_headD (a : List Nat) : a[0]?.getD 0 = a.head?.getD 0 := by
  cases a <;> simp

theorem getElem_succ_tail (a : List Nat) (i : Nat) : a[i + 1]?.getD 0 = a.tail[i]?.getD 0 := by
  cases a <;> simp

theorem adjust_succ (a : List Nat) (n : Nat) :
    adjust a (n + 1) = a.headD 0 :: adjust a.tail n := by
  cases a with
  | nil => simp [adjust, List.replicate_succ]
  | cons x a' => simp [adjust]

theorem sumXorTo_eq_specHamming (n : Nat) :
    ∀ a b : List Nat, sumXorTo a b n = specHamming (adjust a n) (adjust b n) := by
  induction n with
  | zero => intro a b; simp [sumXorTo, adjust, specHamming]
  | succ n ih =>
    intro a b
    have hsum : sumXorTo a b (n + 1)
        = popcount (a.headD 0 ^^^ b.headD 0) + sumXorTo a.tail b.tail n := by
      rw [sumXorTo_eq_sum, List.range_succ_eq_map, sumXorTo_eq_sum a.tail b.tail n]
      simp [List.map_map, Function.comp_def, getElem_succ_tail, getElem_zero_headD]
    rw [hsum, adjust_succ, adjust_succ, ih]
    simp [specHamming]

theorem adjust_self (a : List Nat) : adjust a a.length = a := by
  simp [adjust]

theorem adjust_of_length_le (a : List Nat) {n : Nat} (h : a.length ≤ n) :
    adjust a n = zeroExtend a n := by
  simp [adjust, zeroExtend, List.take_of_length_le h]

set_option maxRecDepth 8000 in
theorem popcount_le_eight : ∀ x < 256, popcount x ≤ 8 := by decide

theorem getD_lt_two_pow_eight : ∀ (a : List Nat), (∀ v ∈ a, v < 256) → ∀ i, a.getD i 0 < 256 := by
  intro a
  induction a with
  | nil => intro _ i; simp
  | cons x a' ih =>
    intro h i
    cases i with
    | zero => simpa using h x (by simp)
    | succ j => simpa using ih (fun v hv => h v (by simp [hv])) j

theorem sumXorTo_le (a b : List Nat) (n : Nat)
    (ha : ∀ v ∈ a, v < 256) (hb : ∀ v ∈ b, v < 256) :
    sumXorTo a b n ≤ 8 * n := by
  induction n with
  | zero => simp [sumXorTo]
  | succ n ih =>
    have hstep : sumXorTo a b (n + 1)
        = sumXorTo a b n + popcount (a.getD n 0 ^^^ b.getD n 0) := by
      rw [sumXorTo_eq_sum, sumXorTo_eq_sum, List.range_succ]
      simp
    have hxor : a.getD n 0 ^^^ b.getD n 0 < 256 := by
      have := Nat.xor_lt_two_pow (n := 8)
        (getD_lt_two_pow_eight a ha n) (getD_lt_two_pow_eight b hb n)
      simpa using this
    have := popcount_le_eight _ hxor
    omega

theorem bitDiff_le (a b : List Nat)
    (ha : ∀ v ∈ a, v < 256) (hb : ∀ v ∈ b, v < 256) :
    bitDiff a b ≤ 8 * max a.length b.length :=
  sumXorTo_le a b _ ha hb

end HashTester

namespace Sea

theorem pass_length (u k : Nat) (st : List Nat) : (pass u k st).length = st.length := by
  have h : ∀ (l : List Nat) (s : List Nat),
      (l.foldl (fun s j => s.set j ((entangle u s + k) % 2 ^ 32)) s).length = s.length := by
    intro l
    induction l with
    | nil => intro s; rfl
    | cons j l ih => intro s; rw [List.foldl_cons, ih, List.length_set]
  exact h _ st

theorem sea256State_length (bytes key : List Nat) : (sea256State bytes key).length = 8 := by
  have h : ∀ (bs st : List Nat) (i : Nat), st.length = 8 →
      ((bs.foldl (fun (p : List Nat × Nat) u => (pass u (shiftValue key p.2) p.1, p.2 + 1))
        (st, i)).1).length = 8 := by
    intro bs
    induction bs with
    | nil => intro st i hst; exact hst
    | cons u bs ih =>
      intro st i hst
      rw [List.foldl_cons]
      exact ih _ _ (by rw [pass_length]; exact hst)
  exact h bytes initialValues 1 rfl

theorem pass_mem_lt (u k : Nat) (st : List Nat) (h : ∀ v ∈ st, v < 2 ^ 32) :
    ∀ v ∈ pass u k st, v < 2 ^ 32 := by
  have haux : ∀ (l : List Nat) (s : List Nat), (∀ v ∈ s, v < 2 ^ 32) →
      ∀ v ∈ l.foldl (fun s j => s.set j ((entangle u s + k) % 2 ^ 32)) s, v < 2 ^ 32 := by
    intro l
    induction l with
    | nil => intro s hs; exact hs
    | cons j l ih =>
      intro s hs
      rw [List.foldl_cons]
      refine ih _ ?_
      intro v hv
      rcases List.mem_or_eq_of_mem_set hv with hv' | rfl
      · exact hs v hv'
      · exact Nat.mod_lt _ (by norm_num)
  exact haux _ st h

theorem sea256State_mem_lt (bytes key : List Nat) :
    ∀ v ∈ sea256State bytes key, v < 2 ^ 32 := by
  have h : ∀ (bs st : List Nat) (i : Nat), (∀ v ∈ st, v < 2 ^ 32) →
      ∀ v ∈ (bs.foldl (fun (p : List Nat × Nat) u => (pass u (shiftValue key p.2) p.1, p.2 + 1))
        (st, i)).1, v < 2 ^ 32 := by
    intro bs
    induction bs with
    | nil => intro st i hst; exact hst
    | cons u bs ih =>
      intro st i hst
      rw [List.foldl_cons]
      exact ih _ _ (pass_mem_lt _ _ _ hst)
  refine h bytes initialValues 1 ?_
  decide

theorem serializeWord_eq_spec (v : Nat) (h : v < 2 ^ 32) :
    serializeWord v = specSerializeWord v := by
  unfold serializeWord specSerializeWord toInt32
  rw [Nat.mod_eq_of_lt h]
  split_ifs with h31
  · rw [Int.fdiv_eq_ediv _ (by norm_num), Int.fdiv_eq_ediv _ (by norm_num),
      Int.fdiv_eq_ediv _ (by norm_num)]
    simp only [List.cons.injEq, and_true]
    norm_num
    omega
  · rw [Int.fdiv_eq_ediv _ (by norm_num), Int.fdiv_eq_ediv _ (by norm_num),
      Int.fdiv_eq_ediv _ (by norm_num)]
    simp only [List.cons.injEq, and_true]
    norm_num
    omega

theorem sea256Raw_eq_spec (bytes key : List Nat) :
    sea256Raw bytes key = specSerialize (sea256State bytes key) := by
  unfold sea256Raw specSerialize
  have haux : ∀ (l : List Nat), (∀ v ∈ l, v < 2 ^ 32) →
      l.flatMap serializeWord = l.flatMap specSerializeWord := by
    intro l
    induction l with
    | nil => intro _; rfl
    | cons x xs ih =>
      intro hl
      rw [List.flatMap_cons, List.flatMap_cons, serializeWord_eq_spec x (hl x (by simp)),
        ih (fun v hv => hl v (by simp [hv]))]
  exact haux _ (sea256State_mem_lt bytes key)

theorem specSerialize_length (l : List Nat) : (specSerialize l).length = 4 * l.length := by
  induction l with
  | nil => rfl
  | cons x xs ih =>
    rw [specSerialize, List.flatMap_cons] at *
    simp [specSerializeWord] at *
    omega

theorem sea256Raw_length (bytes key : List Nat) : (sea256Raw bytes key).length = 32 := by
  rw [sea256Raw_eq_spec, specSerialize_length, sea256State_length]

theorem sea256State_congr_key (x k1 k2 : List Nat)
    (h : ∀ i, shiftValue k1 i = shiftValue k2 i) :
    sea256State x k1 = sea256State x k2 := by
  unfold sea256State
  have haux : ∀ (bs : List Nat) (st : List Nat) (i : Nat),
      bs.foldl (fun (p : List Nat × Nat) u => (pass u (shiftValue k1 p.2) p.1, p.2 + 1)) (st, i)
        = bs.foldl (fun (p : List Nat × Nat) u => (pass u (shiftValue k2 p.2) p.1, p.2 + 1))
            (st, i) := by
    intro bs
    induction bs with
    | nil => intro st i; rfl
    | cons u bs ih =>
      intro st i
      rw [List.foldl_cons, List.foldl_cons]
      show bs.foldl (fun (p : List Nat × Nat) u => (pass u (shiftValue k1 p.2) p.1, p.2 + 1))
            (pass u (shiftValue k1 i) st, i + 1)
          = bs.foldl (fun (p : List Nat × Nat) u => (pass u (shiftValue k2 p.2) p.1, p.2 + 1))
            (pass u (shiftValue k2 i) st, i + 1)
      rw [h i]
      exact ih _ _
  rw [haux x initialValues 1]

theorem shiftValue_append_self (k : List Nat) (hk : k ≠ []) (i : Nat) :
    shiftValue (k ++ k) i = shiftValue k i := by
  unfold shiftValue
  have hL : 0 < k.length := List.length_pos.mpr hk
  rw [List.length_append]
  have hm : i % (k.length + k.length) % k.length = i % k.length :=
    Nat.mod_mod_of_dvd i ⟨2, by ring⟩
  rcases Nat.lt_or_ge (i % (k.length + k.length)) k.length with hlt | hge
  · rw [List.getD_append _ _ _ _ hlt]
    congr 1
    have hult := Nat.mod_eq_of_lt hlt
    omega
  · rw [List.getD_append_right _ _ _ _ hge]
    congr 1
    have hlt2 : i % (k.length + k.length) < k.length + k.length := Nat.mod_lt _ (by omega)
    have e1 : i % (k.length + k.length) % k.length
        = (i % (k.length + k.length) - k.length) % k.length := Nat.mod_eq_sub_mod hge
    have e2 : (i % (k.length + k.length) - k.length) % k.length
        = i % (k.length + k.length) - k.length := Nat.mod_eq_of_lt (by omega)
    omega

end Sea

namespace Sea

theorem shiftValue_nil (i : Nat) : shiftValue [] i = 0 := by
  simp [shiftValue]

theorem shiftValue_singleton (b i : Nat) : shiftValue [b] i = b := by
  simp [shiftValue, Nat.mod_one]

theorem pass_eq_specPass (u k : Nat) (st : List Nat) (h : st.length = 8) :
    pass u k st = specPass u k st := by
  unfold pass specPass
  rw [h]
  rfl

theorem specPass_length (u k : Nat) (st : List Nat) (h : st.length = 8) :
    (specPass u k st).length = 8 := by
  rw [← pass_eq_specPass u k st h, pass_length]
  exact h

theorem shiftValue_eq_specKeyByte (key : List Nat) (hk : key ≠ []) (i : Nat) :
    shiftValue key i = specKeyByte key i := by
  have hlen : key.length ≠ 0 := fun h0 => hk (List.length_eq_zero.mp h0)
  unfold shiftValue specKeyByte
  rw [dif_neg hlen, List.get_eq_getElem]
  exact List.getD_eq_getElem _ _ (Nat.mod_lt _ (Nat.pos_of_ne_zero hlen))

theorem sea256State_eq_specHashState (bytes key : List Nat) (hk : key ≠ []) :
    sea256State bytes key = specHashState bytes key := by
  unfold sea256State specHashState
  have haux : ∀ (bs : List Nat) (st : List Nat) (i : Nat), st.length = 8 →
      bs.foldl (fun (p : List Nat × Nat) u => (pass u (shiftValue key p.2) p.1, p.2 + 1)) (st, i)
        = bs.foldl (fun (p : List Nat × Nat) u => (specPass u (specKeyByte key p.2) p.1, p.2 + 1))
            (st, i) := by
    intro bs
    induction bs with
    | nil => intro st i _; rfl
    | cons u bs ih =>
      intro st i hst
      rw [List.foldl_cons, List.foldl_cons]
      show bs.foldl (fun (p : List Nat × Nat) u => (pass u (shiftValue key p.2) p.1, p.2 + 1))
            (pass u (shiftValue key i) st, i + 1)
          = bs.foldl
              (fun (p : List Nat × Nat) u => (specPass u (specKeyByte key p.2) p.1, p.2 + 1))
              (specPass u (specKeyByte key i) st, i + 1)
      rw [shiftValue_eq_specKeyByte key hk i, pass_eq_specPass _ _ _ hst]
      exact ih _ _ (specPass_length _ _ _ hst)
  rw [haux bytes initialValues 1 rfl]

theorem flShiftAux_eq_zero {fuel n : Nat} (h : n < 2 ^ 53) : flShiftAux (fuel + 1) n = 0 := by
  have h' : n < 9007199254740992 := by omega
  simp [flShiftAux, h']

theorem fl53_of_lt {n : Nat} (h : n < 2 ^ 53) : fl53 n = n := by
  unfold fl53
  have h0 : flShiftAux 2100 n = 0 := flShiftAux_eq_zero h
  simp [h0]

theorem flInt_of_abs_lt {i : Int} (h : i.natAbs < 2 ^ 53) : flInt i = i := by
  unfold flInt
  split_ifs with h0
  · rw [fl53_of_lt (by omega)]
    omega
  · rw [fl53_of_lt (by omega)]
    omega

theorem toInt32_eq_sub (x : Nat) (hx : x < 2 ^ 32) :
    ∃ c : Int, toInt32 x = (x : Int) - 2 ^ 32 * c ∧ (c = 0 ∨ c = 1) := by
  unfold toInt32
  rw [Nat.mod_eq_of_lt hx]
  split_ifs with h31
  · exact ⟨0, by simp, Or.inl rfl⟩
  · exact ⟨1, by ring_nf, Or.inr rfl⟩

theorem zetaValue_congr (alpha beta : Nat) (ha : alpha < 2 ^ 32) (hb : beta < 2 ^ 32) :
    ∃ c : Int, zetaValue alpha beta
      = (((alpha ^^^ beta) + (alpha &&& beta) : Nat) : Int) - 2 ^ 32 * c := by
  obtain ⟨c1, h1, _⟩ := toInt32_eq_sub _ (Nat.xor_lt_two_pow ha hb)
  obtain ⟨c2, h2, _⟩ := toInt32_eq_sub _ (Nat.and_lt_two_pow alpha hb)
  refine ⟨c1 + c2, ?_⟩
  rw [zetaValue, h1, h2]
  push_cast
  ring

theorem gammaValue_eq_exact (alpha beta u : Nat) (ha : alpha < 2 ^ 32) (hb : beta < 2 ^ 32)
    (hsmall : scale * (zetaValue alpha beta).natAbs < 2 ^ 53) :
    gammaValue alpha beta u = gammaExact alpha beta u := by
  have hfl : flInt ((scale : Int) * zetaValue alpha beta)
      = (scale : Int) * zetaValue alpha beta := by
    apply flInt_of_abs_lt
    rw [Int.natAbs_mul]
    simpa using hsmall
  have hz0 : (((scale : Int) * zetaValue alpha beta * 8) % (2 ^ 32 : Int)).toNat
      = scale * ((alpha ^^^ beta) + (alpha &&& beta)) * 8 % 2 ^ 32 := by
    obtain ⟨c, hzc⟩ := zetaValue_congr alpha beta ha hb
    rw [hzc]
    have expand : (scale : Int) * ((((alpha ^^^ beta) + (alpha &&& beta) : Nat) : Int)
          - 2 ^ 32 * c) * 8
        = ((scale * ((alpha ^^^ beta) + (alpha &&& beta)) * 8 : Nat) : Int)
          - 2 ^ 32 * (((scale : Nat) : Int) * c * 8) := by
      push_cast
      ring
    rw [expand, Int.sub_emod, Int.mul_emod_right, sub_zero,
      Int.emod_emod_of_dvd _ dvd_rfl]
    omega
  unfold gammaValue gammaExact nlShift
  rw [hfl, hz0]

end Sea

namespace HashTester

theorem cast_sum_range_map (g : Nat → Nat) (n : Nat) :
    ((((List.range n).map g).sum : Nat) : ℚ) = ∑ i ∈ Finset.range n, (g i : ℚ) := by
  induction n with
  | zero => simp
  | succ n ih =>
    rw [List.range_succ, List.map_append, List.sum_append, Finset.sum_range_succ, ← ih]
    push_cast
    simp

theorem sum_range_map_le (g : Nat → Nat) (c n : Nat) (h : ∀ i, g i ≤ c) :
    ((List.range n).map g).sum ≤ n * c := by
  induction n with
  | zero => simp
  | succ n ih =>
    rw [List.range_succ, List.map_append, List.sum_append, Nat.succ_mul]
    have := h n
    simp only [List.map_cons, List.map_nil, List.sum_cons, List.sum_nil]
    omega

theorem preimageGo_spec (hashFn : List Nat → List Nat) (cands : Nat → List Nat)
    (out : List Nat) (att : Nat) : ∀ (rem i : Nat),
    match preimageGo hashFn cands out att i rem with
    | .found c t => i < t ∧ t ≤ i + rem ∧ c = cands (t - 1) ∧ hashFn c = out
        ∧ ∀ j, i ≤ j → j < t - 1 → hashFn (cands j) ≠ out
    | .notFound t => t = att ∧ ∀ j, i ≤ j → j < i + rem → hashFn (cands j) ≠ out := by
  intro rem
  induction rem with
  | zero =>
    intro i
    simp only [preimageGo]
    constructor
    · trivial
    · intro j hj1 hj2
      omega
  | succ rem ih =>
    intro i
    simp only [preimageGo]
    split_ifs with hmatch
    · refine ⟨by omega, by omega, by simp, hmatch, ?_⟩
      intro j hj1 hj2
      omega
    · have hrec := ih (i + 1)
      cases hcase : preimageGo hashFn cands out att (i + 1) rem with
      | found c t =>
        rw [hcase] at hrec
        refine ⟨by omega, by omega, hrec.2.2.1, hrec.2.2.2.1, ?_⟩
        intro j hj1 hj2
        rcases Nat.eq_or_lt_of_le hj1 with rfl | hlt
        · exact hmatch
        · exact hrec.2.2.2.2 j (by omega) hj2
      | notFound t =>
        rw [hcase] at hrec
        refine ⟨hrec.1, ?_⟩
        intro j hj1 hj2
        rcases Nat.eq_or_lt_of_le hj1 with rfl | hlt
        · exact hmatch
        · exact hrec.2 j (by omega) (by omega)

end HashTester

set_option maxRecDepth 10000 in
/-- Claim C1, counterexample: the state has eight words, not seven, and a
single input byte updates word index 7 as well, so the per-byte pass is
not restricted to words `0..6` and `entangle` does not fold seven words. -/
theorem claim1_counterexample :
    Sea.initialValues.length = 8 ∧
    (Sea.sea256State [0] [0]).getD 7 0 ≠ Sea.initialValues.getD 7 0 := by
  constructor
  · rfl
  · decide

/-- Claim C1 (amended: the state has 8 words and `j` ranges over `0..7`):
for every input byte `u` at 1-indexed position `i` the hash core computes
`k = key[i mod len(key)]` and, for each state word `j` in order `0..7`,
recomputes `state[j] = wrap32(entangle(u, state) + k)` where `entangle`
reads the current state sequentially (read-after-write) and folds the 8
words as `acc = words[0]`, then `acc = roundMix(wrap32(acc + w), u)`. -/
theorem claim1_amended (bytes key : List Nat) (hk : key ≠ []) :
    Sea.sea256State bytes key = Sea.specHashState bytes key :=
  Sea.sea256State_eq_specHashState bytes key hk

/-- Claim C1 witness: the amended statement at the concrete input byte
sequence `[1]` with key `[2]`. -/
theorem claim1_amended_witness :
    (([2] : List Nat) ≠ []) ∧ Sea.sea256State [1] [2] = Sea.specHashState [1] [2] :=
  ⟨by decide, claim1_amended [1] [2] (by decide)⟩

/-- Claim C2, counterexample: at `alpha = beta = 0x7fffffff`, `u = 0`, the
code's non-linear step (whose product `scale * zeta` is rounded to double
precision) yields 71174792, while the claimed exact wrapping arithmetic
yields 67396232. -/
theorem claim2_counterexample :
    Sea.gammaValue 0x7fffffff 0x7fffffff 0 = 71174792 ∧
    Sea.gammaExact 0x7fffffff 0x7fffffff 0 = 67396232 ∧
    Sea.gammaValue 0x7fffffff 0x7fffffff 0 ≠ Sea.gammaExact 0x7fffffff 0x7fffffff 0 :=
  ⟨by decide, by decide, by decide⟩

/-- Claim C2 (amended: the product `scale * zeta` is computed in IEEE-754
double precision, so the claimed exact formula holds exactly whenever that
product stays below `2 ^ 53` in magnitude): for every pair of 32-bit words
and every byte `u` with `scale * natAbs zeta < 2 ^ 53`, the non-linear step
equals the exact wrapped formula of the claim. -/
theorem claim2_amended (alpha beta u : Nat) (ha : alpha < 2 ^ 32) (hb : beta < 2 ^ 32)
    (_hu : u < 256) (hsmall : Sea.scale * (Sea.zetaValue alpha beta).natAbs < 2 ^ 53) :
    Sea.gammaValue alpha beta u = Sea.gammaExact alpha beta u :=
  Sea.gammaValue_eq_exact alpha beta u ha hb hsmall

/-- Claim C2 witness: the amended statement at `alpha = 3`, `beta = 5`,
`u = 7`, where the product is small enough to be exact. -/
theorem claim2_amended_witness :
    (3 : Nat) < 2 ^ 32 ∧ (5 : Nat) < 2 ^ 32 ∧ (7 : Nat) < 256 ∧
    Sea.scale * (Sea.zetaValue 3 5).natAbs < 2 ^ 53 ∧
    Sea.gammaValue 3 5 7 = Sea.gammaExact 3 5 7 :=
  ⟨by decide, by decide, by decide, by decide,
    claim2_amended 3 5 7 (by decide) (by decide) (by decide) (by decide)⟩

/-- Claim C3, counterexample: at input `[0]` with key `[0]` the raw digest
has 32 bytes, not 28. -/
theorem claim3_counterexample :
    (Sea.sea256Raw [0] [0]).length = 32 ∧ (Sea.sea256Raw [0] [0]).length ≠ 28 := by
  have h := Sea.sea256Raw_length [0] [0]
  exact ⟨h, by rw [h]; decide⟩

/-- Claim C3 (amended: the digest has 32 bytes and the state 8 words): for
every input and key the raw digest is exactly 32 bytes, the big-endian
serialization of the 8 state words, independent of input length. -/
theorem claim3_amended (bytes key : List Nat) :
    (Sea.sea256Raw bytes key).length = 32 ∧
    Sea.sea256Raw bytes key = Sea.specSerialize (Sea.sea256State bytes key) ∧
    (Sea.sea256State bytes key).length = 8 :=
  ⟨Sea.sea256Raw_length bytes key, Sea.sea256Raw_eq_spec bytes key,
    Sea.sea256State_length bytes key⟩

/-- Claim C4, counterexample: there are 8 initial constant state words, not
7, and hashing the empty input yields a digest whose length is not the 28
bytes that a 7-word serialization would have. -/
theorem claim4_counterexample :
    Sea.initialValues.length ≠ 7 ∧ (Sea.sea256Raw [] []).length ≠ 28 := by
  constructor
  · decide
  · rw [Sea.sea256Raw_length]
    decide

/-- Claim C4 (amended: there are 8 untouched initial constant state words):
for every key, hashing the empty input is defined and deterministic and
returns exactly the big-endian serialization of the 8 untouched initial
constant state words; no mixing round executes. -/
theorem claim4_amended (key : List Nat) :
    Sea.sea256Raw [] key = Sea.specSerialize Sea.initialValues := by
  rw [Sea.sea256Raw_eq_spec]
  rfl

/-- Claim C5: the key is consumed cyclically at position `i mod length`:
for every input `x` and non-empty key `k`, the digest under `k` equals the
digest under `k ++ k`, and a 1-byte key supplies that byte at every
position of the keystream. -/
theorem claim5_key_cycling (x k : List Nat) (hk : k ≠ []) :
    Sea.sea256Raw x k = Sea.sea256Raw x (k ++ k) ∧ (∀ b i, Sea.shiftValue [b] i = b) := by
  constructor
  · unfold Sea.sea256Raw
    rw [Sea.sea256State_congr_key x k (k ++ k)
      (fun i => (Sea.shiftValue_append_self k hk i).symm)]
  · exact fun b i => Sea.shiftValue_singleton b i

/-- Claim C5 witness: the cycling statement at input `[5]` with the 1-byte
key `[7]`. -/
theorem claim5_key_cycling_witness :
    (([7] : List Nat) ≠ []) ∧ Sea.sea256Raw [5] [7] = Sea.sea256Raw [5] [7, 7] :=
  ⟨by decide, (claim5_key_cycling [5] [7] (by decide)).1⟩

/-- Claim C6, counterexample: on the unequal-length byte sequences `[0]`
and `[255, 255]` the spec's checked version fails with `LengthMismatch`,
but the code's `hammingDistance` throws nothing: it returns 8, the same
value as for the silently truncated second argument `[255]`. -/
theorem claim6_counterexample :
    HashTester.specHammingChecked [0] [255, 255]
        = Except.error HashTester.HarnessError.lengthMismatch ∧
    HashTester.hammingDistance [0] [255, 255] = 8 ∧
    HashTester.hammingDistance [0] [255, 255] = HashTester.hammingDistance [0] [255] :=
  ⟨rfl, by decide, by decide⟩

/-- Claim C6 (amended: `hammingDistance` never fails; on unequal lengths it
iterates over the first argument's byte length only, reading missing bytes
of a shorter second argument as zero and silently ignoring the extra bytes
of a longer second argument): for all byte sequences the result equals the
equal-length differing-bit count against the second argument truncated or
zero-padded to the first argument's length. -/
theorem claim6_amended (a b : List Nat) :
    HashTester.hammingDistance a b
      = HashTester.specHamming a (HashTester.adjust b a.length) := by
  have h := HashTester.sumXorTo_eq_specHamming a.length a b
  rw [HashTester.hammingDistance, h, HashTester.adjust_self]

/-- Claim C7: `bitDiff` counts differing bits of two byte sequences of
possibly unequal length with the shorter sequence zero-extended, never
truncated; in particular it returns 0 on four zero bytes against two zero
bytes, and 16 on four zero bytes against `[0xFF, 0xFF]`. -/
theorem claim7_bitDiff_zero_extension :
    (∀ a b : List Nat, HashTester.bitDiff a b
        = HashTester.specHamming (HashTester.zeroExtend a (max a.length b.length))
            (HashTester.zeroExtend b (max a.length b.length))) ∧
    HashTester.bitDiff [0, 0, 0, 0] [0, 0] = 0 ∧
    HashTester.bitDiff [0, 0, 0, 0] [255, 255] = 16 := by
  refine ⟨?_, by decide, by decide⟩
  intro a b
  rw [HashTester.bitDiff, HashTester.sumXorTo_eq_specHamming,
    HashTester.adjust_of_length_le a (le_max_left _ _),
    HashTester.adjust_of_length_le b (le_max_right _ _)]

/-- Claim C8: for a hash function honouring the fixed-28-byte-digest
contract, every non-empty input and every trial count `n > 0`, `diffusion`
flips bit `i mod (len(x) * 8)` on trial `i` (deterministically, not
randomly), returns the accumulated bit differences divided by `n` and by
the 224 digest bits, and that value lies in `[0, 1]`. -/
theorem claim8_diffusion (hashFn : List Nat → List Nat) (x : List Nat) (n : Nat)
    (hdigest : ∀ s, (hashFn s).length = 28)
    (hbytes : ∀ s, ∀ v ∈ hashFn s, v < 256)
    (_hx : x ≠ []) (hn : 0 < n) :
    HashTester.diffusion hashFn x n
      = (∑ i ∈ Finset.range n,
          (HashTester.bitDiff (hashFn x)
            (hashFn (HashTester.flipBit x (i % (x.length * 8)))) : ℚ)) / (n : ℚ) / 224
    ∧ 0 ≤ HashTester.diffusion hashFn x n ∧ HashTester.diffusion hashFn x n ≤ 1 := by
  have h1 : (List.range n).foldl (fun t i => t + HashTester.bitDiff (hashFn x)
        (hashFn (HashTester.flipBit x (i % (x.length * 8))))) 0
      = ((List.range n).map (fun i => HashTester.bitDiff (hashFn x)
          (hashFn (HashTester.flipBit x (i % (x.length * 8)))))).sum := by
    simpa using HashTester.foldl_add_map_sum
      (fun i => HashTester.bitDiff (hashFn x)
        (hashFn (HashTester.flipBit x (i % (x.length * 8))))) (List.range n) 0
  have hunfold : HashTester.diffusion hashFn x n
      = ((((List.range n).map (fun i => HashTester.bitDiff (hashFn x)
            (hashFn (HashTester.flipBit x (i % (x.length * 8)))))).sum : ℚ) / (n : ℚ))
          / 224 := by
    show ((((List.range n).foldl (fun t i => t + HashTester.bitDiff (hashFn x)
          (hashFn (HashTester.flipBit x (i % (x.length * 8))))) 0 : Nat) : ℚ) / (n : ℚ))
        / (((hashFn x).length * 8 : Nat) : ℚ) = _
    rw [h1, hdigest x]
    norm_num
  have hgle : ∀ i : Nat, HashTester.bitDiff (hashFn x)
      (hashFn (HashTester.flipBit x (i % (x.length * 8)))) ≤ 224 := by
    intro i
    have hb := HashTester.bitDiff_le (hashFn x)
      (hashFn (HashTester.flipBit x (i % (x.length * 8)))) (hbytes x) (hbytes _)
    rw [hdigest x, hdigest (HashTester.flipBit x (i % (x.length * 8)))] at hb
    simpa using hb
  have hsum_le : ((List.range n).map (fun i => HashTester.bitDiff (hashFn x)
      (hashFn (HashTester.flipBit x (i % (x.length * 8)))))).sum ≤ n * 224 :=
    HashTester.sum_range_map_le _ 224 n hgle
  refine ⟨?_, ?_, ?_⟩
  · rw [hunfold, HashTester.cast_sum_range_map]
  · rw [hunfold]
    positivity
  · rw [hunfold, div_div, div_le_one (by positivity)]
    calc (((List.range n).map (fun i => HashTester.bitDiff (hashFn x)
          (hashFn (HashTester.flipBit x (i % (x.length * 8)))))).sum : ℚ)
        ≤ ((n * 224 : Nat) : ℚ) := by exact_mod_cast hsum_le
      _ = (n : ℚ) * 224 := by push_cast; ring

/-- Claim C8 witness: the bound at the constant 28-zero-byte hash function,
input `[1]` and a single trial. -/
theorem claim8_diffusion_witness :
    (∀ s : List Nat, ((fun (_ : List Nat) => List.replicate 28 (0 : Nat)) s).length = 28) ∧
    0 ≤ HashTester.diffusion (fun _ => List.replicate 28 0) [1] 1 ∧
    HashTester.diffusion (fun _ => List.replicate 28 0) [1] 1 ≤ 1 :=
  ⟨fun _ => by simp,
    (claim8_diffusion (fun _ => List.replicate 28 0) [1] 1 (fun _ => by simp)
      (fun _ v hv => by
        have := List.eq_of_mem_replicate hv
        omega)
      (by decide) (by decide)).2⟩

/-- Claim C9: `preimage` is a bounded search: for every hash function,
candidate stream, target and budget, it performs at most `attempts` trials;
on success it returns the first matching candidate together with its
1-based trial count, and on exhaustion it returns the structured value
`notFound attempts` rather than failing. -/
theorem claim9_preimage_bounded (hashFn : List Nat → List Nat) (cands : Nat → List Nat)
    (output : List Nat) (attempts : Nat) :
    match HashTester.preimage hashFn cands output attempts with
    | .found c t => 0 < t ∧ t ≤ attempts ∧ c = cands (t - 1) ∧ hashFn c = output
        ∧ ∀ j, j < t - 1 → hashFn (cands j) ≠ output
    | .notFound t => t = attempts ∧ ∀ j, j < attempts → hashFn (cands j) ≠ output := by
  have h := HashTester.preimageGo_spec hashFn cands output attempts attempts 0
  unfold HashTester.preimage
  cases hcase : HashTester.preimageGo hashFn cands output attempts 0 attempts with
  | found c t =>
    rw [hcase] at h
    refine ⟨h.1, ?_, h.2.2.1, h.2.2.2.1, fun j hj => h.2.2.2.2 j (Nat.zero_le j) hj⟩
    have := h.2.1
    omega
  | notFound t =>
    rw [hcase] at h
    exact ⟨h.1, fun j hj => h.2 j (Nat.zero_le j) (by omega)⟩

/-- Claim C10: the zero-length key does not make the hash fail: the
keystream lookup returns 0 at every position (as it also does for the
single zero byte key), and hashing any input with the empty key equals
hashing it with the key `[0]`, i.e. with keystream byte 0 everywhere. -/
theorem claim10_empty_key (x : List Nat) :
    (∀ i, Sea.shiftValue [] i = 0) ∧ (∀ i, Sea.shiftValue [0] i = 0)
    ∧ Sea.sea256Raw x [] = Sea.sea256Raw x [0] := by
  refine ⟨Sea.shiftValue_nil, fun i => Sea.shiftValue_singleton 0 i, ?_⟩
  unfold Sea.sea256Raw
  rw [Sea.sea256State_congr_key x [] [0]
    (fun i => by rw [Sea.shiftValue_nil, Sea.shiftValue_singleton])]
